import Mathlib

/-!
Verification development for the rnsec scan-orchestration core.

The definitions below are a shallow embedding of `src/core/cache.ts`
(`ScanCache`) and `src/core/ruleEngine.ts` (`RuleEngine`).  External
collaborators (file system reads, the SHA-256 digest, the AST parser, the
safe JSON parser, the debug-context classifier) are modelled as fields of
an explicit `Env` record of pure functions, matching the spec's treatment
of them as opaque collaborators.  JavaScript `Date.now()` is threaded as an
explicit `now : Int` argument; `Record<string, CacheEntry>` is modelled as
an association list with JavaScript object semantics (lookup by key,
upsert keeps the key's position, delete removes the key).
-/

/-- Severity levels of findings, from `types/findings.ts`. -/
inductive Severity where
  | CRITICAL
  | HIGH
  | MEDIUM
  | LOW
deriving DecidableEq, Repr

/-- One reported security issue, from `types/findings.ts`. -/
structure Finding where
  ruleId : String
  description : String
  severity : Severity
  filePath : String
  line : Option Nat
  snippet : Option String
  suggestion : Option String
deriving DecidableEq, Repr

/-- Cache entry for a scanned file (`cache.ts`, `CacheEntry`). -/
structure CacheEntry where
  hash : String
  findings : List Finding
  timestamp : Int
  version : String
deriving DecidableEq, Repr

/-- Cache data structure (`cache.ts`, `CacheData`); the `files` record is
modelled as an association list keyed by file path. -/
structure CacheData where
  files : List (String × CacheEntry)
  createdAt : Int
  updatedAt : Int
deriving DecidableEq, Repr

/-- Lookup of `files[filePath]` in the association-list model of a
JavaScript object. -/
def lookupFile : List (String × CacheEntry) → String → Option CacheEntry
  | [], _ => none
  | (p, e) :: rest, q => if p = q then some e else lookupFile rest q

/-- Upsert `files[filePath] = entry`: an existing key keeps its position,
a new key is appended (JavaScript object insertion-order semantics). -/
def upsertFile : List (String × CacheEntry) → String → CacheEntry → List (String × CacheEntry)
  | [], q, v => [(q, v)]
  | (p, e) :: rest, q, v => if p = q then (q, v) :: rest else (p, e) :: upsertFile rest q v

/-- `delete files[filePath]` on the association-list model. -/
def removeFile : List (String × CacheEntry) → String → List (String × CacheEntry)
  | [], _ => []
  | (p, e) :: rest, q => if p = q then rest else (p, e) :: removeFile rest q

/-- Default cache file name (`cache.ts`, `DEFAULT_CACHE_FILE`). -/
def DEFAULT_CACHE_FILE : String := ".rnsec-cache.json"

/-- Cache manager for incremental scanning (`cache.ts`, `ScanCache`).
Disk persistence (`load`/`save`) is I/O against the cache file and does not
change the state queried by any claim; it is therefore not modelled. -/
structure ScanCache where
  cacheFile : String
  cache : CacheData
  version : String
  isDirty : Bool
  enabled : Bool
deriving DecidableEq, Repr

/-- The `ScanCache` constructor: joins the cache path and starts from
`createEmptyCache()` with `enabled = true`, `isDirty = false`. -/
def ScanCache.create (projectDir : String) (version : String) (now : Int)
    (cacheFileName : String := DEFAULT_CACHE_FILE) : ScanCache :=
  { cacheFile := projectDir ++ "/" ++ cacheFileName
    cache := { files := [], createdAt := now, updatedAt := now }
    version := version
    isDirty := false
    enabled := true }

/-- `ScanCache.isValid(filePath, contentHash)`: the chain of early returns
in the source (`!enabled` / missing entry / hash mismatch / version
mismatch) collapses to this conjunction. -/
def ScanCache.isValid (c : ScanCache) (filePath contentHash : String) : Bool :=
  if !c.enabled then false
  else
    match lookupFile c.cache.files filePath with
    | none => false
    | some entry =>
      if entry.hash ≠ contentHash then false
      else if entry.version ≠ c.version then false
      else true

/-- `ScanCache.getFindings(filePath)`: returns the stored findings of the
entry at `filePath` (if any) whenever the cache is enabled. -/
def ScanCache.getFindings (c : ScanCache) (filePath : String) : Option (List Finding) :=
  if !c.enabled then none
  else
    match lookupFile c.cache.files filePath with
    | none => none
    | some entry => some entry.findings

/-- `ScanCache.set(filePath, contentHash, findings)`: upserts an entry
stamped with the current time and running version and marks the cache
dirty; a no-op when the cache is disabled. -/
def ScanCache.set (c : ScanCache) (filePath contentHash : String)
    (findings : List Finding) (now : Int) : ScanCache :=
  if !c.enabled then c
  else
    { c with
      cache := { c.cache with
        files := upsertFile c.cache.files filePath
          { hash := contentHash, findings := findings, timestamp := now, version := c.version } }
      isDirty := true }

/-- `ScanCache.remove(filePath)`: deletes the entry and marks dirty only
when the entry exists.  Note: the source has no `enabled` guard here. -/
def ScanCache.remove (c : ScanCache) (filePath : String) : ScanCache :=
  match lookupFile c.cache.files filePath with
  | some _ =>
      { c with
        cache := { c.cache with files := removeFile c.cache.files filePath }
        isDirty := true }
  | none => c

/-- `ScanCache.clear()`: resets to `createEmptyCache()` and marks dirty.
Note: the source has no `enabled` guard here. -/
def ScanCache.clear (c : ScanCache) (now : Int) : ScanCache :=
  { c with
    cache := { files := [], createdAt := now, updatedAt := now }
    isDirty := true }

/-- Cache statistics (`cache.ts`, `getStats`); `hitRate` is declared
optional in the source and never set, so only `entries` is modelled. -/
structure CacheStats where
  entries : Nat
deriving DecidableEq, Repr

/-- `ScanCache.getStats()`: number of entries in the files record. -/
def ScanCache.getStats (c : ScanCache) : CacheStats :=
  { entries := c.cache.files.length }

/-- `ScanCache.setEnabled(enabled)`. -/
def ScanCache.setEnabled (c : ScanCache) (enabled : Bool) : ScanCache :=
  { c with enabled := enabled }

/-- `ScanCache.isEnabled()`. -/
def ScanCache.isEnabled (c : ScanCache) : Bool :=
  c.enabled

/-- The removal condition of `ScanCache.prune`: the path is absent from
`existingFiles` or the entry is older than the cutoff time. -/
def pruneRemoves (existingFiles : List String) (cutoffTime : Int)
    (pe : String × CacheEntry) : Bool :=
  !(existingFiles.contains pe.1) || decide (pe.2.timestamp < cutoffTime)

/-- `ScanCache.prune(existingFiles, maxAgeMs)`: the source loop walks a
snapshot of the keys, deletes every entry satisfying the removal condition
and counts the deletions; this translates to filtering the entry list and
counting the removed entries.  Note: no `enabled` guard in the source. -/
def ScanCache.prune (c : ScanCache) (existingFiles : List String)
    (now : Int) (maxAgeMs : Int := 7 * 24 * 60 * 60 * 1000) : ScanCache × Nat :=
  let cutoffTime := now - maxAgeMs
  let removed := c.cache.files.countP (pruneRemoves existingFiles cutoffTime)
  ({ c with
      cache := { c.cache with
        files := c.cache.files.filter (fun pe => !(pruneRemoves existingFiles cutoffTime pe)) }
      isDirty := if removed > 0 then true else c.isDirty },
    removed)

/-- Opaque parsed AST produced by the external parser collaborator
(`astParser.ts`, `parseJSFile`); its structure is never inspected by the
engine. -/
structure JsAst where
  tag : String
deriving DecidableEq, Repr

/-- Opaque JSON value produced by the external safe JSON parser
(`astParser.ts`, `parseJsonSafe`).  `truthy` records JavaScript truthiness
of the parsed value, which `prepareContext` tests with `if (config)`. -/
structure JsonValue where
  tag : String
  truthy : Bool
deriving DecidableEq, Repr

/-- Result of the parser collaborator: a success flag and an optional AST
(`parseJSFile` resolves to `{ success, ast?, error? }`). -/
structure ParseResult where
  success : Bool
  ast : Option JsAst
deriving DecidableEq, Repr

/-- The external collaborators of the engine, modelled as pure functions
over a fixed file-system snapshot: `readFileContent` (none on read
failure), `parseJSFile`, `parseJsonSafe` (none when parsing returns null),
`isInDebugContext` from `stringUtils.ts`, and the SHA-256 hex digest used
by `ScanCache.getContentHash`. -/
structure Env where
  readFileContent : String → Option String
  parseJSFile : String → String → ParseResult
  parseJsonSafe : String → Option JsonValue
  isInDebugContext : String → Option String → String → Bool
  sha256Hex : String → String

/-- `ScanCache.getContentHash(content)`: SHA-256 hex digest of the
content, delegated to the crypto collaborator. -/
def ScanCache.getContentHash (_c : ScanCache) (env : Env) (content : String) : String :=
  env.sha256Hex content

/-- Per-file, per-scan payload handed to rules (`types/ruleTypes.ts`,
`RuleContext`). -/
structure RuleContext where
  filePath : String
  fileContent : String
  ast : Option JsAst
  config : Option JsonValue
  xmlContent : Option String
  plistContent : Option String
deriving DecidableEq, Repr

/-- A detection rule (`types/ruleTypes.ts`, `Rule`): `apply` may fail,
modelled with `Except`. -/
structure Rule where
  id : String
  description : String
  severity : Severity
  fileTypes : List String
  apply : RuleContext → Except String (List Finding)

/-- A registration unit of rules (`types/ruleTypes.ts`, `RuleGroup`); the
category tag is metadata only and modelled as an opaque string. -/
structure RuleGroup where
  category : String
  rules : List Rule

/-- Default concurrency for parallel file processing (`ruleEngine.ts`). -/
def DEFAULT_CONCURRENCY : Nat := 10

/-- Terminal aggregate of one scan (`ruleEngine.ts`, `ScanResult`); the
optional counters are surfaced only when positive. -/
structure ScanResult where
  findings : List Finding
  scannedFiles : Nat
  skippedFiles : Option Nat
  cachedFiles : Option Nat
deriving DecidableEq, Repr

/-- The scan orchestrator (`ruleEngine.ts`, `RuleEngine`): registered rule
groups, ignored rule ids, exclusion globs, concurrency bound, optional
cache, and the per-run skipped/cached counters. -/
structure RuleEngine where
  ruleGroups : List RuleGroup
  ignoredRules : List String
  skippedFiles : Nat
  excludedPaths : List String
  concurrency : Nat
  cache : Option ScanCache
  cachedFiles : Nat

/-- A freshly constructed `RuleEngine` with the field initializers of the
source class. -/
def RuleEngine.new : RuleEngine :=
  { ruleGroups := []
    ignoredRules := []
    skippedFiles := 0
    excludedPaths := []
    concurrency := DEFAULT_CONCURRENCY
    cache := none
    cachedFiles := 0 }

/-- `registerRuleGroup(group)`. -/
def RuleEngine.registerRuleGroup (e : RuleEngine) (group : RuleGroup) : RuleEngine :=
  { e with ruleGroups := e.ruleGroups ++ [group] }

/-- `setIgnoredRules(ignoredRules)`. -/
def RuleEngine.setIgnoredRules (e : RuleEngine) (ignoredRules : List String) : RuleEngine :=
  { e with ignoredRules := ignoredRules }

/-- `setExcludedPaths(exclude)`. -/
def RuleEngine.setExcludedPaths (e : RuleEngine) (exclude : List String) : RuleEngine :=
  { e with excludedPaths := exclude }

/-- `setConcurrency(concurrency)`: clamped to at least 1 via
`Math.max(1, concurrency)`. -/
def RuleEngine.setConcurrency (e : RuleEngine) (concurrency : Int) : RuleEngine :=
  { e with concurrency := (max 1 concurrency).toNat }

/-- `getAllRules()`: flattened rules of all groups minus the ignored ids,
preserving registration order. -/
def RuleEngine.getAllRules (e : RuleEngine) : List Rule :=
  (e.ruleGroups.flatMap (fun group => group.rules)).filter
    (fun rule => !(e.ignoredRules.contains rule.id))

/-- JavaScript `path.endsWith(suffix)`, modelled on the character list of
the string (kernel-reducible, unlike `String.endsWith`). -/
def strEndsWith (s suffix : String) : Bool :=
  suffix.data.isSuffixOf s.data

/-- `getApplicableRules(filePath)`: rules whose `fileTypes` contains a
suffix of the path. -/
def RuleEngine.getApplicableRules (e : RuleEngine) (filePath : String) : List Rule :=
  (e.getAllRules).filter (fun rule => rule.fileTypes.any (fun t => strEndsWith filePath t))

/-- The test `filePath.match(/\.(js|jsx|ts|tsx)$/)` of `prepareContext`:
the regex holds exactly when the path ends with one of the four code
extensions. -/
def isJsPath (filePath : String) : Bool :=
  strEndsWith filePath ".js" || strEndsWith filePath ".jsx" ||
  strEndsWith filePath ".ts" || strEndsWith filePath ".tsx"

/-- `prepareContext(filePath, fileContent)`: builds the per-file context,
selecting the secondary payload by the extension chain of the source
(code / `.json` / `.xml` / `.plist`). -/
def prepareContext (env : Env) (filePath fileContent : String) : RuleContext :=
  let base : RuleContext :=
    { filePath := filePath, fileContent := fileContent
      ast := none, config := none, xmlContent := none, plistContent := none }
  if isJsPath filePath then
    let parseResult := env.parseJSFile filePath fileContent
    if parseResult.success then { base with ast := parseResult.ast } else base
  else if strEndsWith filePath ".json" then
    match env.parseJsonSafe fileContent with
    | some config => if config.truthy then { base with config := some config } else base
    | none => base
  else if strEndsWith filePath ".xml" then { base with xmlContent := some fileContent }
  else if strEndsWith filePath ".plist" then { base with plistContent := some fileContent }
  else base

/-- One rule invocation inside the `scanFileContent` loop: a failing
`apply` is caught and contributes no findings. -/
def applyRule (rule : Rule) (context : RuleContext) : List Finding :=
  match rule.apply context with
  | .ok ruleFindings => ruleFindings
  | .error _ => []

/-- `enrichFindingsWithDebugContext(findings, fileContent)`: drops every
finding classified as being in debug/development context. -/
def enrichFindingsWithDebugContext (env : Env) (e : RuleEngine)
    (findings : List Finding) (fileContent : String) : List Finding :=
  let _ := e
  findings.filter (fun finding =>
    !(env.isInDebugContext fileContent finding.snippet finding.filePath))

/-- `scanFileContent(filePath, fileContent)`: build the context, run every
applicable rule (errors caught per rule), then filter through the
debug-context classifier. -/
def scanFileContent (env : Env) (e : RuleEngine) (filePath fileContent : String) :
    List Finding :=
  let context := prepareContext env filePath fileContent
  let applicableRules := e.getApplicableRules filePath
  let findings := applicableRules.flatMap (fun rule => applyRule rule context)
  enrichFindingsWithDebugContext env e findings fileContent

/-- `scanFile(filePath)`: read the file (a failure increments the skipped
counter and yields no findings), consult the cache when wired (a valid
entry with stored findings is returned and counted as cached; otherwise
the file is scanned and the result cached), or scan directly without a
cache.  Returns the updated engine state and the findings. -/
def scanFile (env : Env) (now : Int) (e : RuleEngine) (filePath : String) :
    RuleEngine × List Finding :=
  match env.readFileContent filePath with
  | none => ({ e with skippedFiles := e.skippedFiles + 1 }, [])
  | some fileContent =>
    match e.cache with
    | some c =>
      let contentHash := c.getContentHash env fileContent
      if c.isValid filePath contentHash then
        match c.getFindings filePath with
        | some cachedFindings => ({ e with cachedFiles := e.cachedFiles + 1 }, cachedFindings)
        | none =>
          let findings := scanFileContent env e filePath fileContent
          ({ e with cache := some (c.set filePath contentHash findings now) }, findings)
      else
        let findings := scanFileContent env e filePath fileContent
        ({ e with cache := some (c.set filePath contentHash findings now) }, findings)
    | none => (e, scanFileContent env e filePath fileContent)

/-- Sequential denotation of the per-file task list: the source maps the
paths to promises and `Promise.all` collects the per-file findings lists
positionally, which for a fixed snapshot is this structural recursion. -/
def scanFilesSeq (env : Env) (now : Int) (e : RuleEngine) :
    List String → RuleEngine × List (List Finding)
  | [] => (e, [])
  | filePath :: rest =>
    let r := scanFile env now e filePath
    let rs := scanFilesSeq env now r.1 rest
    (rs.1, r.2 :: rs.2)

/-- `runRulesOnFiles(filePaths)`: resets the per-run counters, scans every
file, flattens the per-file findings in input order, and surfaces the
skipped/cached counters only when positive.  `saveCache()` is disk I/O
whose in-memory effect (clearing the dirty flag) is not queried by any
claim and is not modelled. -/
def RuleEngine.runRulesOnFiles (e : RuleEngine) (env : Env) (now : Int)
    (filePaths : List String) : RuleEngine × ScanResult :=
  let e0 := { e with skippedFiles := 0, cachedFiles := 0 }
  let r := scanFilesSeq env now e0 filePaths
  (r.1,
    { findings := r.2.flatten
      scannedFiles := filePaths.length
      skippedFiles := if r.1.skippedFiles > 0 then some r.1.skippedFiles else none
      cachedFiles := if r.1.cachedFiles > 0 then some r.1.cachedFiles else none })

/-- One completed task of the concurrent model: task `i` runs `scanFile`
on the `i`-th input path against the shared engine state and writes its
findings into slot `i` of the results array (the slot `Promise.all`
reserves for it). -/
def runTask (env : Env) (now : Int) (files : List String)
    (st : RuleEngine × List (List Finding)) (i : Nat) : RuleEngine × List (List Finding) :=
  match files[i]? with
  | none => st
  | some filePath =>
    let r := scanFile env now st.1 filePath
    (r.1, st.2.set i r.2)

/-- Concurrent execution model of `runRulesOnFiles`: `order` is the order
in which the per-file tasks complete.  Tasks interleave only at await
points of the single-threaded event loop; each task body is taken as one
atomic step, shared state (cache and counters) is threaded in completion
order, and `Promise.all` collects results by input position. -/
def runSchedule (env : Env) (now : Int) (e : RuleEngine) (files : List String)
    (order : List Nat) : RuleEngine × List (List Finding) :=
  order.foldl (runTask env now files)
    ({ e with skippedFiles := 0, cachedFiles := 0 }, List.replicate files.length [])

/-- The per-file findings determined by the initial engine state alone: an
unreadable file contributes nothing; a file with a valid cache entry
contributes the stored findings; any other file contributes the result of
scanning its content. -/
def pureFind (env : Env) (e0 : RuleEngine) (filePath : String) : List Finding :=
  match env.readFileContent filePath with
  | none => []
  | some fileContent =>
    match e0.cache with
    | none => scanFileContent env e0 filePath fileContent
    | some c =>
      if c.isValid filePath (env.sha256Hex fileContent) then
        match c.getFindings filePath with
        | some cachedFindings => cachedFindings
        | none => scanFileContent env e0 filePath fileContent
      else scanFileContent env e0 filePath fileContent

/-- Number of populated secondary payloads of a context. -/
def countPopulated (c : RuleContext) : Nat :=
  (if c.ast.isSome then 1 else 0) + (if c.config.isSome then 1 else 0) +
  (if c.xmlContent.isSome then 1 else 0) + (if c.plistContent.isSome then 1 else 0)

/-- Modelled from the spec: the bounded-parallelism limiter (the `p-limit`
dependency is not part of this repository).  A limiter state counts the
tasks still queued, the tasks in flight, and the tasks finished. -/
structure LimiterState where
  pending : Nat
  active : Nat
  finished : Nat
deriving DecidableEq, Repr

/-- Modelled from the spec: a limiter admitting at most `n` concurrent
tasks may start a queued task only while fewer than `n` are in flight, and
may retire a running task at any time; excess tasks stay queued until a
slot frees. -/
inductive LimiterStep (n : Nat) : LimiterState → LimiterState → Prop where
  | start (p a f : Nat) : a < n →
      LimiterStep n ⟨p + 1, a, f⟩ ⟨p, a + 1, f⟩
  | finish (p a f : Nat) :
      LimiterStep n ⟨p, a + 1, f⟩ ⟨p, a, f + 1⟩

/-- The limiter states reachable while `runRulesOnFiles` drains `k`
per-file tasks: all tasks start queued, none in flight. -/
def limiterReachable (n k : Nat) (s : LimiterState) : Prop :=
  Relation.ReflTransGen (LimiterStep n) ⟨k, 0, 0⟩ s

/-! ### Association-list lemmas for the cache files record -/

theorem lookupFile_upsert_self (l : List (String × CacheEntry)) (q : String) (v : CacheEntry) :
    lookupFile (upsertFile l q v) q = some v := by
  induction l with
  | nil => simp [upsertFile, lookupFile]
  | cons pe rest ih =>
    obtain ⟨p, e⟩ := pe
    by_cases hpq : p = q
    · simp [upsertFile, lookupFile, hpq]
    · simp [upsertFile, lookupFile, hpq, ih]

theorem lookupFile_upsert_ne (l : List (String × CacheEntry)) (q : String) (v : CacheEntry)
    (p : String) (hne : p ≠ q) :
    lookupFile (upsertFile l q v) p = lookupFile l p := by
  have hqp : q ≠ p := fun h => hne h.symm
  induction l with
  | nil => simp [upsertFile, lookupFile, hqp]
  | cons pe rest ih =>
    obtain ⟨r, e⟩ := pe
    by_cases hrq : r = q
    · subst hrq
      simp [upsertFile, lookupFile, hqp]
    · by_cases hrp : r = p
      · simp [upsertFile, lookupFile, hrq, hrp, hne]
      · simp [upsertFile, lookupFile, hrq, hrp, ih]

theorem lookupFile_eq_none_of_not_mem (l : List (String × CacheEntry)) (p : String)
    (h : p ∉ l.map Prod.fst) : lookupFile l p = none := by
  induction l with
  | nil => simp [lookupFile]
  | cons pe rest ih =>
    obtain ⟨q, e⟩ := pe
    simp only [List.map_cons, List.mem_cons, not_or] at h
    have hqp : q ≠ p := fun hh => h.1 hh.symm
    simp [lookupFile, hqp, ih h.2]

theorem lookupFile_filter (l : List (String × CacheEntry))
    (nd : (l.map Prod.fst).Nodup) (pred : String × CacheEntry → Bool) (p : String) :
    lookupFile (l.filter pred) p =
      match lookupFile l p with
      | some e => if pred (p, e) then some e else none
      | none => none := by
  induction l with
  | nil => simp [lookupFile]
  | cons pe rest ih =>
    obtain ⟨q, e⟩ := pe
    simp only [List.map_cons, List.nodup_cons] at nd
    by_cases hk : pred (q, e)
    · by_cases hqp : q = p
      · subst hqp
        simp [List.filter_cons, lookupFile, hk]
      · simp [List.filter_cons, lookupFile, hk, hqp, ih nd.2]
    · by_cases hqp : q = p
      · subst hqp
        have hnone : lookupFile (rest.filter pred) q = none := by
          apply lookupFile_eq_none_of_not_mem
          intro hmem
          apply nd.1
          obtain ⟨pe, hpe, hfst⟩ := List.mem_map.mp hmem
          exact List.mem_map.mpr ⟨pe, List.mem_of_mem_filter hpe, hfst⟩
        simp [List.filter_cons, lookupFile, hk, hnone]
      · simp [List.filter_cons, lookupFile, hk, hqp, ih nd.2]

theorem countP_filter_not_length {α : Type} (l : List α) (pred : α → Bool) :
    l.countP pred + (l.filter (fun a => !(pred a))).length = l.length := by
  induction l with
  | nil => simp
  | cons a rest ih =>
    by_cases h : pred a <;> simp [List.countP_cons, List.filter_cons, h] <;> omega

/-! ### Cache query lemmas -/

theorem isValid_iff (c : ScanCache) (q g : String) :
    c.isValid q g = true ↔
      c.enabled = true ∧ ∃ entry, lookupFile c.cache.files q = some entry
        ∧ entry.hash = g ∧ entry.version = c.version := by
  unfold ScanCache.isValid
  cases hen : c.enabled with
  | false => simp
  | true =>
    cases hlk : lookupFile c.cache.files q with
    | none => simp
    | some entry =>
      by_cases hh : entry.hash = g
      · by_cases hv : entry.version = c.version
        · simp [hh, hv]
        · simp [hh, hv]
      · simp [hh]

theorem getFindings_of_isValid (c : ScanCache) (q g : String) (h : c.isValid q g = true) :
    ∃ entry, lookupFile c.cache.files q = some entry
      ∧ c.getFindings q = some entry.findings
      ∧ entry.hash = g ∧ entry.version = c.version ∧ c.enabled = true := by
  obtain ⟨hen, entry, hlk, hh, hv⟩ := (isValid_iff c q g).mp h
  exact ⟨entry, hlk, by simp [ScanCache.getFindings, hen, hlk], hh, hv, hen⟩

/-- A sample finding shared by the concrete cache instances below. -/
def sampleFinding : Finding :=
  { ruleId := "TEST_RULE", description := "Test finding", severity := .HIGH
    filePath := "/test/file.js", line := some 10, snippet := none, suggestion := none }

/-! ### Claim C3 -/

def c3entry : CacheEntry :=
  { hash := "h1", findings := [sampleFinding], timestamp := 100, version := "1.0.0" }

def c3cache : ScanCache :=
  { cacheFile := "/proj/.rnsec-cache.json"
    cache := { files := [("/a", c3entry)], createdAt := 0, updatedAt := 0 }
    version := "1.0.0", isDirty := false, enabled := true }

/-- Claim C3 is false as stated: on a disabled `ScanCache` holding an
entry for `/a`, `remove("/a")` does change the in-memory cache state — the
entry count drops from 1 to 0 — because `remove` (like `clear` and
`prune`) has no `enabled` guard in the source. -/
theorem claim_C3_counterexample :
    (c3cache.setEnabled false).remove "/a" ≠ c3cache.setEnabled false
    ∧ ((c3cache.setEnabled false).remove "/a").getStats.entries = 0
    ∧ (c3cache.setEnabled false).getStats.entries = 1 := by
  refine ⟨by decide, by decide, by decide⟩

/-- Claim C3 (amended): after `setEnabled(false)` every query is a
guaranteed miss (`isValid` false, `getFindings` null) and `set` is a
no-op, but `remove`, `clear` and `prune` still mutate the in-memory state
exactly as they do on an enabled cache; none of these operations raises an
error (all are total). -/
theorem claim_C3_disabled_cache_behaviour (c : ScanCache) (p h : String)
    (fs : List Finding) (now maxAgeMs : Int) (existing : List String) :
    ((c.setEnabled false).isValid p h = false
      ∧ (c.setEnabled false).getFindings p = none
      ∧ (c.setEnabled false).set p h fs now = c.setEnabled false)
    ∧ (c.setEnabled false).remove p = (c.remove p).setEnabled false
    ∧ (c.setEnabled false).clear now = (c.clear now).setEnabled false
    ∧ ((c.setEnabled false).prune existing now maxAgeMs).1
        = ((c.prune existing now maxAgeMs).1).setEnabled false
    ∧ ((c.setEnabled false).prune existing now maxAgeMs).2
        = (c.prune existing now maxAgeMs).2 := by
  refine ⟨⟨?_, ?_, ?_⟩, ?_, ?_, ?_, ?_⟩
  · simp [ScanCache.setEnabled, ScanCache.isValid]
  · simp [ScanCache.setEnabled, ScanCache.getFindings]
  · simp [ScanCache.setEnabled, ScanCache.set]
  · cases hlk : lookupFile c.cache.files p <;>
      simp [ScanCache.setEnabled, ScanCache.remove, hlk]
  · rfl
  · rfl
  · rfl

/-! ### Claim C6 -/

/-- Claim C6: on an enabled cache, `set(path, hash, findings)` makes
`isValid(path, hash)` true (the entry is stamped with the running version)
and `getFindings(path)` return exactly the stored findings; and
`isValid(path, h)` holds iff an entry exists whose stored hash is `h` and
whose stored version is the running version. -/
theorem claim_C6_set_isValid_getFindings (c : ScanCache) (p hsh : String)
    (fs : List Finding) (now : Int) (hen : c.enabled = true) :
    ((c.set p hsh fs now).isValid p hsh = true
      ∧ (c.set p hsh fs now).getFindings p = some fs)
    ∧ (∀ q g, c.isValid q g = true ↔
        ∃ entry, lookupFile c.cache.files q = some entry
          ∧ entry.hash = g ∧ entry.version = c.version) := by
  refine ⟨⟨?_, ?_⟩, ?_⟩
  · simp [ScanCache.set, hen, ScanCache.isValid, lookupFile_upsert_self]
  · simp [ScanCache.set, hen, ScanCache.getFindings, lookupFile_upsert_self]
  · intro q g
    rw [isValid_iff]
    simp [hen]

theorem claim_C6_witness :
    ((ScanCache.create "/proj" "1.0.0" 0).set "/f.js" "h" [sampleFinding] 5).isValid "/f.js" "h" = true
    ∧ ((ScanCache.create "/proj" "1.0.0" 0).set "/f.js" "h" [sampleFinding] 5).getFindings "/f.js"
        = some [sampleFinding]
    ∧ ((ScanCache.create "/proj" "1.0.0" 0).isValid "/q.js" "g" = true ↔
        ∃ entry, lookupFile (ScanCache.create "/proj" "1.0.0" 0).cache.files "/q.js" = some entry
          ∧ entry.hash = "g" ∧ entry.version = (ScanCache.create "/proj" "1.0.0" 0).version) := by
  have h := claim_C6_set_isValid_getFindings (ScanCache.create "/proj" "1.0.0" 0)
    "/f.js" "h" [sampleFinding] 5 rfl
  exact ⟨h.1.1, h.1.2, h.2 "/q.js" "g"⟩

/-! ### Claim C7 -/

/-- Claim C7: `prune(existingPaths, maxAgeMs)` removes exactly the entries
whose path is absent from `existingPaths` or whose timestamp is older than
`now - maxAgeMs`, leaves every other entry unchanged, and the removed
count plus the surviving entry count equals the original entry count. -/
theorem claim_C7_prune (c : ScanCache) (existing : List String) (now maxAgeMs : Int)
    (hnd : (c.cache.files.map Prod.fst).Nodup) :
    (∀ p entry, lookupFile c.cache.files p = some entry →
      lookupFile (c.prune existing now maxAgeMs).1.cache.files p =
        (if existing.contains p = true ∧ ¬(entry.timestamp < now - maxAgeMs)
          then some entry else none))
    ∧ (∀ p, lookupFile c.cache.files p = none →
        lookupFile (c.prune existing now maxAgeMs).1.cache.files p = none)
    ∧ (c.prune existing now maxAgeMs).2
        + (c.prune existing now maxAgeMs).1.getStats.entries = c.getStats.entries := by
  have hfiles : (c.prune existing now maxAgeMs).1.cache.files
      = c.cache.files.filter (fun pe => !(pruneRemoves existing (now - maxAgeMs) pe)) := rfl
  have hcount : (c.prune existing now maxAgeMs).2
      = c.cache.files.countP (pruneRemoves existing (now - maxAgeMs)) := rfl
  refine ⟨?_, ?_, ?_⟩
  · intro p entry hlk
    rw [hfiles, lookupFile_filter c.cache.files hnd, hlk]
    by_cases h1 : existing.contains p
    · by_cases h2 : entry.timestamp < now - maxAgeMs
      · simp [pruneRemoves, h1, h2]
      · simp [pruneRemoves, h1, h2]
    · simp [pruneRemoves, h1]
  · intro p hlk
    rw [hfiles, lookupFile_filter c.cache.files hnd, hlk]
  · have hstats : (c.prune existing now maxAgeMs).1.getStats.entries
        = (c.cache.files.filter (fun pe => !(pruneRemoves existing (now - maxAgeMs) pe))).length :=
      rfl
    rw [hcount, hstats]
    exact countP_filter_not_length c.cache.files (pruneRemoves existing (now - maxAgeMs))

def c7entryA : CacheEntry :=
  { hash := "ha", findings := [], timestamp := 1000, version := "1.0.0" }

def c7entryB : CacheEntry :=
  { hash := "hb", findings := [], timestamp := 1000, version := "1.0.0" }

def c7cache : ScanCache :=
  { cacheFile := "/proj/.rnsec-cache.json"
    cache := { files := [("/a", c7entryA), ("/b", c7entryB)], createdAt := 0, updatedAt := 0 }
    version := "1.0.0", isDirty := false, enabled := true }

theorem claim_C7_witness :
    (c7cache.prune ["/a"] 1000).2 = 1
    ∧ lookupFile (c7cache.prune ["/a"] 1000).1.cache.files "/b" = none
    ∧ lookupFile (c7cache.prune ["/a"] 1000).1.cache.files "/a" = some c7entryA := by
  have h := claim_C7_prune c7cache ["/a"] 1000 (7 * 24 * 60 * 60 * 1000) (by decide)
  refine ⟨by decide, ?_, ?_⟩
  · have hb := h.1 "/b" c7entryB (by decide)
    rw [hb]
    decide
  · have ha := h.1 "/a" c7entryA (by decide)
    rw [ha]
    decide

/-! ### Claim C10 -/

/-- Claim C10: on an enabled cache, `getFindings(path)` returns the stored
findings of whatever entry exists for `path`, with no hash or version
check — the hypotheses place no constraint on the entry's hash or version,
so a stale or different-version entry's findings are still returned; only
`isValid` performs those checks (see `isValid_iff`). -/
theorem claim_C10_getFindings_unchecked (c : ScanCache) (p : String) (entry : CacheEntry)
    (hen : c.enabled = true) (hlk : lookupFile c.cache.files p = some entry) :
    c.getFindings p = some entry.findings := by
  simp [ScanCache.getFindings, hen, hlk]

def c10entry : CacheEntry :=
  { hash := "oldhash", findings := [sampleFinding], timestamp := 0, version := "0.9.0" }

def c10cache : ScanCache :=
  { cacheFile := "/proj/.rnsec-cache.json"
    cache := { files := [("/a.js", c10entry)], createdAt := 0, updatedAt := 0 }
    version := "1.0.0", isDirty := false, enabled := true }

theorem claim_C10_witness :
    c10cache.getFindings "/a.js" = some c10entry.findings
    ∧ c10cache.isValid "/a.js" "newhash" = false := by
  exact ⟨claim_C10_getFindings_unchecked c10cache "/a.js" c10entry rfl (by decide), by decide⟩

/-! ### Claim C8 -/

/-- A concrete collaborator environment used by the engine witnesses:
every file reads as the same small source line, parsing always succeeds,
nothing is classified as debug context. -/
def sampleEnv : Env :=
  { readFileContent := fun _ => some "const x = 1;"
    parseJSFile := fun _ _ => { success := true, ast := some { tag := "Program" } }
    parseJsonSafe := fun content => some { tag := content, truthy := true }
    isInDebugContext := fun _ _ _ => false
    sha256Hex := fun content => "sha256:" ++ content }

/-- Claim C8 is false as stated: scanning a file whose extension is none
of the four categories (here `/a.txt`) builds a RuleContext in which none
of `ast`/`config`/`xmlContent`/`plistContent` is populated — zero fields,
not exactly one.  (A code file whose parse fails or a `.json` file whose
safe parse returns null likewise yields zero.) -/
theorem claim_C8_counterexample :
    countPopulated (prepareContext sampleEnv "/a.txt" "hello") = 0 := by
  decide

/-- Claim C8 (amended): the context built for a non-cached scan has at
most one of the four secondary payloads populated, selected by the
extension chain of the source: code files get the AST exactly when parsing
succeeds, `.json` files get the config exactly when the safe parse yields
a truthy value, `.xml` and `.plist` files always get the raw text, and
files of any other extension get none of the four. -/
theorem claim_C8_context_payload (env : Env) (p content : String) :
    countPopulated (prepareContext env p content) ≤ 1
    ∧ (prepareContext env p content).filePath = p
    ∧ (prepareContext env p content).fileContent = content
    ∧ (isJsPath p = true →
        (prepareContext env p content).ast
            = (if (env.parseJSFile p content).success then (env.parseJSFile p content).ast
               else none)
          ∧ (prepareContext env p content).config = none
          ∧ (prepareContext env p content).xmlContent = none
          ∧ (prepareContext env p content).plistContent = none)
    ∧ (isJsPath p = false → strEndsWith p ".json" = true →
        (prepareContext env p content).ast = none
          ∧ (prepareContext env p content).config
              = (match env.parseJsonSafe content with
                 | some config => if config.truthy then some config else none
                 | none => none)
          ∧ (prepareContext env p content).xmlContent = none
          ∧ (prepareContext env p content).plistContent = none)
    ∧ (isJsPath p = false → strEndsWith p ".json" = false → strEndsWith p ".xml" = true →
        (prepareContext env p content).xmlContent = some content
          ∧ countPopulated (prepareContext env p content) = 1)
    ∧ (isJsPath p = false → strEndsWith p ".json" = false → strEndsWith p ".xml" = false →
        strEndsWith p ".plist" = true →
        (prepareContext env p content).plistContent = some content
          ∧ countPopulated (prepareContext env p content) = 1)
    ∧ (isJsPath p = false → strEndsWith p ".json" = false → strEndsWith p ".xml" = false →
        strEndsWith p ".plist" = false →
        countPopulated (prepareContext env p content) = 0) := by
  by_cases hjs : isJsPath p
  · by_cases hps : (env.parseJSFile p content).success
    · cases hast : (env.parseJSFile p content).ast with
      | none =>
        refine ⟨?_, ?_, ?_, ?_, ?_, ?_, ?_, ?_⟩ <;>
          simp [prepareContext, hjs, hps, hast, countPopulated]
      | some a =>
        refine ⟨?_, ?_, ?_, ?_, ?_, ?_, ?_, ?_⟩ <;>
          simp [prepareContext, hjs, hps, hast, countPopulated]
    · refine ⟨?_, ?_, ?_, ?_, ?_, ?_, ?_, ?_⟩ <;>
        simp [prepareContext, hjs, hps, countPopulated]
  · by_cases hjson : strEndsWith p ".json"
    · cases hcfg : env.parseJsonSafe content with
      | none =>
        refine ⟨?_, ?_, ?_, ?_, ?_, ?_, ?_, ?_⟩ <;>
          simp [prepareContext, hjs, hjson, hcfg, countPopulated]
      | some config =>
        by_cases htr : config.truthy
        · refine ⟨?_, ?_, ?_, ?_, ?_, ?_, ?_, ?_⟩ <;>
            simp [prepareContext, hjs, hjson, hcfg, htr, countPopulated]
        · refine ⟨?_, ?_, ?_, ?_, ?_, ?_, ?_, ?_⟩ <;>
            simp [prepareContext, hjs, hjson, hcfg, htr, countPopulated]
    · by_cases hxml : strEndsWith p ".xml"
      · refine ⟨?_, ?_, ?_, ?_, ?_, ?_, ?_, ?_⟩ <;>
          simp [prepareContext, hjs, hjson, hxml, countPopulated]
      · by_cases hplist : strEndsWith p ".plist"
        · refine ⟨?_, ?_, ?_, ?_, ?_, ?_, ?_, ?_⟩ <;>
            simp [prepareContext, hjs, hjson, hxml, hplist, countPopulated]
        · refine ⟨?_, ?_, ?_, ?_, ?_, ?_, ?_, ?_⟩ <;>
            simp [prepareContext, hjs, hjson, hxml, hplist, countPopulated]

theorem claim_C8_witness :
    countPopulated (prepareContext sampleEnv "/m.xml" "<a />") ≤ 1
    ∧ (prepareContext sampleEnv "/m.xml" "<a />").xmlContent = some "<a />"
    ∧ countPopulated (prepareContext sampleEnv "/m.xml" "<a />") = 1 := by
  have h := claim_C8_context_payload sampleEnv "/m.xml" "<a />"
  have hx := h.2.2.2.2.2.1 (by decide) (by decide) (by decide)
  exact ⟨h.1, hx.1, hx.2⟩

/-! ### Claim C4 -/

/-- Claim C4: if one applicable rule's `apply` fails on a file's context,
its findings are discarded while every remaining applicable rule's
contribution survives — the scan of the file equals the scan with only the
other applicable rules, and (being a total function) never aborts. -/
theorem claim_C4_rule_failure_isolation (env : Env) (e : RuleEngine)
    (p content : String) (pre post : List Rule) (r : Rule) (msg : String)
    (happ : e.getApplicableRules p = pre ++ r :: post)
    (herr : r.apply (prepareContext env p content) = .error msg) :
    scanFileContent env e p content
      = enrichFindingsWithDebugContext env e
          ((pre ++ post).flatMap (fun rule => applyRule rule (prepareContext env p content)))
          content := by
  unfold scanFileContent
  rw [happ]
  simp [List.flatMap_append, applyRule, herr]

/-- A rule that always reports one finding at the context's path. -/
def okRule : Rule :=
  { id := "OK_RULE", description := "ok", severity := .HIGH, fileTypes := [".js", ".ts"]
    apply := fun context =>
      .ok [{ ruleId := "OK_RULE", description := "found", severity := .HIGH
             filePath := context.filePath, line := none, snippet := none, suggestion := none }] }

/-- A rule whose `apply` always fails. -/
def failingRule : Rule :=
  { id := "FAIL_RULE", description := "fails", severity := .HIGH, fileTypes := [".js", ".ts"]
    apply := fun _ => .error "boom" }

def c4engine : RuleEngine :=
  RuleEngine.new.registerRuleGroup { category := "storage", rules := [failingRule, okRule] }

theorem claim_C4_witness :
    scanFileContent sampleEnv c4engine "/app.js" "const x = 1;"
      = enrichFindingsWithDebugContext sampleEnv c4engine
          (([] ++ [okRule]).flatMap
            (fun rule => applyRule rule (prepareContext sampleEnv "/app.js" "const x = 1;")))
          "const x = 1;" := by
  exact claim_C4_rule_failure_isolation sampleEnv c4engine "/app.js" "const x = 1;"
    [] [okRule] failingRule "boom" rfl rfl

/-! ### Run invariant machinery -/

/-- The engine configuration that determines which rules run on a file. -/
@[reducible] def configEq (e1 e2 : RuleEngine) : Prop :=
  e1.ruleGroups = e2.ruleGroups ∧ e1.ignoredRules = e2.ignoredRules

theorem getApplicableRules_congr {e1 e2 : RuleEngine} (h : configEq e1 e2) (p : String) :
    e1.getApplicableRules p = e2.getApplicableRules p := by
  unfold RuleEngine.getApplicableRules RuleEngine.getAllRules
  rw [h.1, h.2]

theorem scanFileContent_congr (env : Env) {e1 e2 : RuleEngine} (h : configEq e1 e2)
    (p content : String) :
    scanFileContent env e1 p content = scanFileContent env e2 p content := by
  unfold scanFileContent enrichFindingsWithDebugContext
  rw [getApplicableRules_congr h]

/-! ### Equation lemmas for scanFile -/

theorem scanFile_unreadable (env : Env) (now : Int) (e : RuleEngine) (p : String)
    (h : env.readFileContent p = none) :
    scanFile env now e p = ({ e with skippedFiles := e.skippedFiles + 1 }, []) := by
  simp [scanFile, h]

theorem scanFile_nocache (env : Env) (now : Int) (e : RuleEngine) (p content : String)
    (hr : env.readFileContent p = some content) (hc : e.cache = none) :
    scanFile env now e p = (e, scanFileContent env e p content) := by
  simp [scanFile, hr, hc]

theorem scanFile_cache_hit (env : Env) (now : Int) (e : RuleEngine) (p content : String)
    (c : ScanCache) (fs : List Finding)
    (hr : env.readFileContent p = some content) (hc : e.cache = some c)
    (hval : c.isValid p (env.sha256Hex content) = true)
    (hgf : c.getFindings p = some fs) :
    scanFile env now e p = ({ e with cachedFiles := e.cachedFiles + 1 }, fs) := by
  simp [scanFile, hr, hc, ScanCache.getContentHash, hval, hgf]

theorem scanFile_cache_scan (env : Env) (now : Int) (e : RuleEngine) (p content : String)
    (c : ScanCache)
    (hr : env.readFileContent p = some content) (hc : e.cache = some c)
    (hval : c.isValid p (env.sha256Hex content) = false) :
    scanFile env now e p
      = ({ e with cache := some (c.set p (env.sha256Hex content)
              (scanFileContent env e p content) now) },
         scanFileContent env e p content) := by
  simp [scanFile, hr, hc, ScanCache.getContentHash, hval]

/-! ### Cache set lemmas -/

theorem set_enabled_eq (c : ScanCache) (p h : String) (fs : List Finding) (now : Int) :
    (c.set p h fs now).enabled = c.enabled := by
  unfold ScanCache.set
  cases hen : c.enabled <;> simp [hen]

theorem set_version_eq (c : ScanCache) (p h : String) (fs : List Finding) (now : Int) :
    (c.set p h fs now).version = c.version := by
  unfold ScanCache.set
  cases hen : c.enabled <;> simp [hen]

theorem set_of_disabled (c : ScanCache) (p h : String) (fs : List Finding) (now : Int)
    (hd : c.enabled = false) : c.set p h fs now = c := by
  simp [ScanCache.set, hd]

theorem set_lookup_self (c : ScanCache) (p h : String) (fs : List Finding) (now : Int)
    (he : c.enabled = true) :
    lookupFile (c.set p h fs now).cache.files p
      = some { hash := h, findings := fs, timestamp := now, version := c.version } := by
  simp [ScanCache.set, he, lookupFile_upsert_self]

theorem set_lookup_ne (c : ScanCache) (p h : String) (fs : List Finding) (now : Int)
    (q : String) (hne : q ≠ p) :
    lookupFile (c.set p h fs now).cache.files q = lookupFile c.cache.files q := by
  unfold ScanCache.set
  cases hen : c.enabled
  · simp
  · simp [lookupFile_upsert_ne _ _ _ _ hne]

theorem isValid_congr {c c0 : ScanCache} (hen : c.enabled = c0.enabled)
    (hver : c.version = c0.version) {p : String}
    (hlk : lookupFile c.cache.files p = lookupFile c0.cache.files p) (h : String) :
    c.isValid p h = c0.isValid p h := by
  unfold ScanCache.isValid
  rw [hen, hver, hlk]

/-! ### The canonical run extension invariant -/

/-- The cache entry a task writes for path `p` during a run that started
from engine state `e0`. -/
def canonEntry (env : Env) (now : Int) (e0 : RuleEngine) (ver : String)
    (p content : String) : CacheEntry :=
  { hash := env.sha256Hex content
    findings := scanFileContent env e0 p content
    timestamp := now
    version := ver }

/-- During a run starting from cache `c0`, the shared cache differs from
`c0` only in entries written by completed tasks: each such entry is the
canonical entry of a readable path that had no valid entry in `c0`. -/
@[reducible] def cacheExtends (env : Env) (now : Int) (e0 : RuleEngine) (c0 c : ScanCache) : Prop :=
  c.enabled = c0.enabled ∧ c.version = c0.version ∧
  ∀ p, lookupFile c.cache.files p = lookupFile c0.cache.files p
    ∨ ∃ content, env.readFileContent p = some content
        ∧ c0.isValid p (env.sha256Hex content) = false
        ∧ lookupFile c.cache.files p = some (canonEntry env now e0 c0.version p content)

/-- During a run starting from engine state `e0`, the shared engine state
keeps the configuration of `e0` and carries a cache that canonically
extends the initial one (counters are unconstrained). -/
@[reducible] def runExtends (env : Env) (now : Int) (e0 e : RuleEngine) : Prop :=
  configEq e0 e ∧
  ((e0.cache = none ∧ e.cache = none)
    ∨ ∃ c0 c, e0.cache = some c0 ∧ e.cache = some c ∧ cacheExtends env now e0 c0 c)

theorem runExtends_refl (env : Env) (now : Int) (e : RuleEngine) :
    runExtends env now e e := by
  refine ⟨⟨rfl, rfl⟩, ?_⟩
  cases hc : e.cache with
  | none => exact Or.inl ⟨rfl, rfl⟩
  | some c => exact Or.inr ⟨c, c, rfl, rfl, rfl, rfl, fun p => Or.inl rfl⟩

theorem runExtends_reset (env : Env) (now : Int) (e : RuleEngine) :
    runExtends env now e { e with skippedFiles := 0, cachedFiles := 0 } := by
  refine ⟨⟨rfl, rfl⟩, ?_⟩
  cases hc : e.cache with
  | none => exact Or.inl ⟨rfl, rfl⟩
  | some c => exact Or.inr ⟨c, c, rfl, hc ▸ rfl, rfl, rfl, fun p => Or.inl rfl⟩

/-- The step lemma of the run: from any engine state reachable during a
run that started at `e0`, scanning one file yields exactly the per-file
findings determined by `e0`, and keeps the state reachable. -/
theorem scanFile_step (env : Env) (now : Int) (e0 e : RuleEngine) (p : String)
    (hx : runExtends env now e0 e) :
    runExtends env now e0 (scanFile env now e p).1
    ∧ (scanFile env now e p).2 = pureFind env e0 p := by
  obtain ⟨hcfg, hcache⟩ := hx
  cases hr : env.readFileContent p with
  | none =>
    rw [scanFile_unreadable env now e p hr]
    exact ⟨⟨hcfg, hcache⟩, by simp [pureFind, hr]⟩
  | some content =>
    rcases hcache with ⟨h0, h⟩ | ⟨c0, c, h0, h, hen, hver, hinv⟩
    · rw [scanFile_nocache env now e p content hr h]
      refine ⟨⟨hcfg, Or.inl ⟨h0, h⟩⟩, ?_⟩
      simp only [pureFind, hr, h0]
      exact (scanFileContent_congr env hcfg p content).symm
    · cases hval : c.isValid p (env.sha256Hex content) with
      | true =>
        obtain ⟨entry, hlk, hgf, hhash, hverE, henT⟩ :=
          getFindings_of_isValid c p (env.sha256Hex content) hval
        rw [scanFile_cache_hit env now e p content c entry.findings hr h hval hgf]
        refine ⟨⟨hcfg, Or.inr ⟨c0, c, h0, h, hen, hver, hinv⟩⟩, ?_⟩
        simp only [pureFind, hr, h0]
        rcases hinv p with hsame | ⟨content', hr', hnv, hcan⟩
        · have hlk0 : lookupFile c0.cache.files p = some entry := hsame.symm.trans hlk
          have hen0 : c0.enabled = true := hen.symm.trans henT
          have hval0 : c0.isValid p (env.sha256Hex content) = true := by
            rw [isValid_iff]
            exact ⟨hen0, entry, hlk0, hhash, hverE.trans hver⟩
          have hgf0 : c0.getFindings p = some entry.findings := by
            simp [ScanCache.getFindings, hen0, hlk0]
          simp [hval0, hgf0]
        · rw [hr] at hr'
          injection hr' with hcc
          subst hcc
          rw [hlk] at hcan
          injection hcan with hentry
          simp [hentry, hnv, canonEntry]
      | false =>
        have hnv0 : c0.isValid p (env.sha256Hex content) = false := by
          rcases hinv p with hsame | ⟨content', hr', hnv, hcan⟩
          · rw [← isValid_congr hen hver hsame]
            exact hval
          · rw [hr] at hr'
            injection hr' with hcc
            subst hcc
            exact hnv
        rw [scanFile_cache_scan env now e p content c hr h hval]
        constructor
        · refine ⟨hcfg, Or.inr ⟨c0, c.set p (env.sha256Hex content)
            (scanFileContent env e p content) now, h0, rfl, ?_, ?_, ?_⟩⟩
          · rw [set_enabled_eq]
            exact hen
          · rw [set_version_eq]
            exact hver
          · intro q
            by_cases hq : q = p
            · subst hq
              cases henb : c.enabled with
              | false =>
                rw [set_of_disabled _ _ _ _ _ henb]
                exact hinv q
              | true =>
                right
                refine ⟨content, hr, hnv0, ?_⟩
                rw [set_lookup_self _ _ _ _ _ henb]
                have hfind : scanFileContent env e q content = scanFileContent env e0 q content :=
                  (scanFileContent_congr env hcfg q content).symm
                simp only [canonEntry]
                rw [hfind, hver]
            · cases henb : c.enabled with
              | false =>
                rw [set_of_disabled _ _ _ _ _ henb]
                exact hinv q
              | true =>
                rw [set_lookup_ne _ _ _ _ _ _ hq]
                exact hinv q
        · simp only [pureFind, hr, h0, hnv0]
          simp only [Bool.false_eq_true, if_false]
          exact (scanFileContent_congr env hcfg p content).symm

/-- Folding the step lemma over the sequential task list. -/
theorem scanFilesSeq_pure (env : Env) (now : Int) (e0 : RuleEngine) :
    ∀ (files : List String) (e : RuleEngine), runExtends env now e0 e →
      (scanFilesSeq env now e files).2 = files.map (pureFind env e0)
      ∧ runExtends env now e0 (scanFilesSeq env now e files).1 := by
  intro files
  induction files with
  | nil => exact fun e hx => ⟨rfl, hx⟩
  | cons p rest ih =>
    intro e hx
    have hstep := scanFile_step env now e0 e p hx
    have hrest := ih (scanFile env now e p).1 hstep.1
    constructor
    · show (scanFile env now e p).2
          :: (scanFilesSeq env now (scanFile env now e p).1 rest).2
          = pureFind env e0 p :: rest.map (pureFind env e0)
      rw [hstep.2, hrest.1]
    · show runExtends env now e0 (scanFilesSeq env now (scanFile env now e p).1 rest).1
      exact hrest.2

/-- `scanFile` increments the skipped counter exactly on a read failure. -/
theorem scanFile_counters (env : Env) (now : Int) (e : RuleEngine) (p : String) :
    (scanFile env now e p).1.skippedFiles
      = e.skippedFiles + (if env.readFileContent p = none then 1 else 0) := by
  cases hr : env.readFileContent p with
  | none =>
    rw [scanFile_unreadable env now e p hr]
    simp
  | some content =>
    cases hc : e.cache with
    | none =>
      rw [scanFile_nocache env now e p content hr hc]
      simp [hr]
    | some c =>
      cases hval : c.isValid p (env.sha256Hex content) with
      | true =>
        obtain ⟨entry, hlk, hgf, h1, h2, h3⟩ :=
          getFindings_of_isValid c p (env.sha256Hex content) hval
        rw [scanFile_cache_hit env now e p content c entry.findings hr hc hval hgf]
        simp [hr]
      | false =>
        rw [scanFile_cache_scan env now e p content c hr hc hval]
        simp [hr]

/-- The final skipped counter counts exactly the unreadable input files. -/
theorem scanFilesSeq_skipped (env : Env) (now : Int) :
    ∀ (files : List String) (e : RuleEngine),
      (scanFilesSeq env now e files).1.skippedFiles
        = e.skippedFiles + files.countP (fun p => (env.readFileContent p).isNone) := by
  intro files
  induction files with
  | nil =>
    intro e
    simp [scanFilesSeq]
  | cons p rest ih =>
    intro e
    show (scanFilesSeq env now (scanFile env now e p).1 rest).1.skippedFiles = _
    rw [ih, scanFile_counters]
    simp only [List.countP_cons]
    cases hr : env.readFileContent p <;> (simp [hr]; try omega)

/-- The per-file findings depend only on the configuration and the cache. -/
theorem pureFind_congr (env : Env) {e1 e2 : RuleEngine} (hcfg : configEq e1 e2)
    (hcache : e1.cache = e2.cache) (p : String) :
    pureFind env e1 p = pureFind env e2 p := by
  unfold pureFind
  cases hr : env.readFileContent p with
  | none => rfl
  | some content =>
    rw [hcache]
    cases hc : e2.cache with
    | none => exact scanFileContent_congr env hcfg p content
    | some c =>
      cases hval : c.isValid p (env.sha256Hex content) with
      | true =>
        cases hgf : c.getFindings p <;>
          simp [hval, hgf, scanFileContent_congr env hcfg p content]
      | false => simp [hval, scanFileContent_congr env hcfg p content]

/-- The findings of `runRulesOnFiles` are the per-file findings of the
initial engine state, concatenated in input order. -/
theorem runRulesOnFiles_findings (env : Env) (now : Int) (e : RuleEngine)
    (files : List String) :
    (e.runRulesOnFiles env now files).2.findings
      = (files.map (pureFind env e)).flatten := by
  have h := scanFilesSeq_pure env now { e with skippedFiles := 0, cachedFiles := 0 } files
    { e with skippedFiles := 0, cachedFiles := 0 } (runExtends_refl env now _)
  show (scanFilesSeq env now { e with skippedFiles := 0, cachedFiles := 0 } files).2.flatten = _
  rw [h.1]
  have hfun : pureFind env { e with skippedFiles := 0, cachedFiles := 0 } = pureFind env e :=
    funext fun p => pureFind_congr env ⟨rfl, rfl⟩ rfl p
  rw [hfun]

/-- Folding the step lemma over an arbitrary completion order: a task
fills its own slot with the per-file findings determined by the initial
engine state, whatever the completion order. -/
theorem runSchedule_foldl (env : Env) (now : Int) (e0 : RuleEngine) (files : List String) :
    ∀ (order : List Nat) (st : RuleEngine × List (List Finding)),
      runExtends env now e0 st.1 →
      st.2.length = files.length →
      runExtends env now e0 (order.foldl (runTask env now files) st).1
      ∧ (order.foldl (runTask env now files) st).2.length = files.length
      ∧ ∀ i, i < files.length →
          (order.foldl (runTask env now files) st).2[i]?
            = (if i ∈ order then (files[i]?).map (pureFind env e0) else st.2[i]?) := by
  intro order
  induction order with
  | nil =>
    intro st hx hlen
    refine ⟨hx, hlen, fun i hi => ?_⟩
    simp
  | cons j rest ih =>
    intro st hx hlen
    rw [List.foldl_cons]
    cases hj : files[j]? with
    | none =>
      have hstj : runTask env now files st j = st := by
        simp [runTask, hj]
      rw [hstj]
      obtain ⟨ha, hb, hc⟩ := ih st hx hlen
      refine ⟨ha, hb, fun i hi => ?_⟩
      have hij : i ≠ j := by
        intro hij
        subst hij
        rw [List.getElem?_eq_getElem hi] at hj
        exact Option.noConfusion hj
      rw [hc i hi]
      simp [hij]
    | some p =>
      have hj' : j < files.length := by
        by_contra hge
        rw [List.getElem?_eq_none (Nat.le_of_not_lt hge)] at hj
        exact Option.noConfusion hj
      have hstj : runTask env now files st j
          = ((scanFile env now st.1 p).1, st.2.set j (scanFile env now st.1 p).2) := by
        simp [runTask, hj]
      have hstep := scanFile_step env now e0 st.1 p hx
      rw [hstj]
      obtain ⟨ha, hb, hc⟩ := ih ((scanFile env now st.1 p).1, st.2.set j (scanFile env now st.1 p).2)
        hstep.1 (by simpa using hlen)
      refine ⟨ha, hb, fun i hi => ?_⟩
      rw [hc i hi]
      by_cases hmem : i ∈ rest
      · simp [hmem]
      · by_cases hij : i = j
        · subst hij
          have hset : (st.2.set i (scanFile env now st.1 p).2)[i]?
              = some (scanFile env now st.1 p).2 :=
            List.getElem?_set_self (by rw [hlen]; exact hi)
          rw [if_neg hmem, hset, hstep.2, hj]
          simp [List.mem_cons]
        · have hset : (st.2.set j (scanFile env now st.1 p).2)[i]?  = st.2[i]? :=
            List.getElem?_set_ne (fun hji => hij hji.symm)
          rw [if_neg hmem, hset]
          have : i ∉ j :: rest := by
            simp [List.mem_cons, hij, hmem]
          simp [this]

/-- For every completion order that completes each task exactly once, the
results array of the concurrent model equals the per-file findings in
input order. -/
theorem runSchedule_pure (env : Env) (now : Int) (e : RuleEngine) (files : List String)
    (order : List Nat) (hperm : order.Perm (List.range files.length)) :
    (runSchedule env now e files order).2 = files.map (pureFind env e) := by
  have h := runSchedule_foldl env now { e with skippedFiles := 0, cachedFiles := 0 } files order
    ({ e with skippedFiles := 0, cachedFiles := 0 }, List.replicate files.length [])
    (runExtends_refl env now _) (List.length_replicate _ _)
  have hfun : pureFind env { e with skippedFiles := 0, cachedFiles := 0 } = pureFind env e :=
    funext fun p => pureFind_congr env ⟨rfl, rfl⟩ rfl p
  apply List.ext_getElem?
  intro i
  by_cases hi : i < files.length
  · have hslot := h.2.2 i hi
    have hmem : i ∈ order := hperm.mem_iff.mpr (List.mem_range.mpr hi)
    show (order.foldl (runTask env now files)
      ({ e with skippedFiles := 0, cachedFiles := 0 }, List.replicate files.length [])).2[i]? = _
    rw [hslot, if_pos hmem, List.getElem?_map, hfun]
  · have hge := Nat.le_of_not_lt hi
    show (order.foldl (runTask env now files)
      ({ e with skippedFiles := 0, cachedFiles := 0 }, List.replicate files.length [])).2[i]? = _
    rw [List.getElem?_eq_none (by rw [h.2.1]; exact hge),
      List.getElem?_eq_none (by rw [List.length_map]; exact hge)]

/-! ### Claim C2 -/

/-- Claim C2: the findings of `runRulesOnFiles` are the concatenation of
the per-file findings lists in original input-file order, and the
concurrent model produces that same sequence under every completion order
(`Promise.all` collects per-task results positionally). -/
theorem claim_C2_order_independent_findings (env : Env) (now : Int) (e : RuleEngine)
    (files : List String) :
    (e.runRulesOnFiles env now files).2.findings = (files.map (pureFind env e)).flatten
    ∧ ∀ order, order.Perm (List.range files.length) →
        (runSchedule env now e files order).2.flatten
          = (e.runRulesOnFiles env now files).2.findings := by
  refine ⟨runRulesOnFiles_findings env now e files, fun order hperm => ?_⟩
  rw [runSchedule_pure env now e files order hperm, runRulesOnFiles_findings]

/-- An engine with one always-reporting rule and no cache wired. -/
def c2engine : RuleEngine :=
  RuleEngine.new.registerRuleGroup { category := "network", rules := [okRule] }

theorem claim_C2_witness :
    ((c2engine.runRulesOnFiles sampleEnv 0 ["/a.js", "/b.js"]).2.findings
        = ((["/a.js", "/b.js"]).map (pureFind sampleEnv c2engine)).flatten)
    ∧ ((runSchedule sampleEnv 0 c2engine ["/a.js", "/b.js"] [1, 0]).2.flatten
        = (c2engine.runRulesOnFiles sampleEnv 0 ["/a.js", "/b.js"]).2.findings) := by
  have h := claim_C2_order_independent_findings sampleEnv 0 c2engine ["/a.js", "/b.js"]
  exact ⟨h.1, h.2 [1, 0] (by decide)⟩

/-! ### Claim C1 -/

/-- Claim C1: for every file list and rule configuration, a scan with a
freshly created (empty, enabled) cache wired produces exactly the same
findings as a scan with no cache wired: the cache is an optimization layer
only. -/
theorem claim_C1_cache_is_optimization_only (env : Env) (now now0 : Int)
    (e : RuleEngine) (projectDir version : String) (files : List String)
    (hnc : e.cache = none) :
    ({ e with cache := some (ScanCache.create projectDir version now0) }.runRulesOnFiles
        env now files).2.findings
      = (e.runRulesOnFiles env now files).2.findings := by
  rw [runRulesOnFiles_findings, runRulesOnFiles_findings]
  congr 1
  apply List.map_congr_left
  intro p hp
  unfold pureFind
  cases hr : env.readFileContent p with
  | none => rfl
  | some content =>
    rw [hnc]
    have hfresh : (ScanCache.create projectDir version now0).isValid p (env.sha256Hex content)
        = false := rfl
    simp only [hfresh, Bool.false_eq_true, if_false]
    exact scanFileContent_congr env ⟨rfl, rfl⟩ p content

theorem claim_C1_witness :
    ({ c2engine with cache := some (ScanCache.create "/proj" "1.0.0" 0) }.runRulesOnFiles
        sampleEnv 5 ["/a.js", "/b.txt"]).2.findings
      = (c2engine.runRulesOnFiles sampleEnv 5 ["/a.js", "/b.txt"]).2.findings := by
  exact claim_C1_cache_is_optimization_only sampleEnv 5 0 c2engine "/proj" "1.0.0"
    ["/a.js", "/b.txt"] rfl

/-! ### Claim C5 -/

/-- Claim C5: an unreadable file contributes zero findings, increments the
skipped-file counter by exactly one relative to the same run without it,
and the run still returns a ScanResult covering every input file. -/
theorem claim_C5_unreadable_file_skipped (env : Env) (now : Int) (e : RuleEngine)
    (pre post : List String) (p : String) (hraw : env.readFileContent p = none) :
    ((e.runRulesOnFiles env now (pre ++ p :: post)).2.findings
        = (e.runRulesOnFiles env now (pre ++ post)).2.findings)
    ∧ pureFind env e p = []
    ∧ ((e.runRulesOnFiles env now (pre ++ p :: post)).1.skippedFiles
        = (e.runRulesOnFiles env now (pre ++ post)).1.skippedFiles + 1)
    ∧ (e.runRulesOnFiles env now (pre ++ p :: post)).2.scannedFiles
        = pre.length + post.length + 1 := by
  have hpf : pureFind env e p = [] := by simp [pureFind, hraw]
  refine ⟨?_, hpf, ?_, ?_⟩
  · rw [runRulesOnFiles_findings, runRulesOnFiles_findings]
    simp [hpf]
  · show (scanFilesSeq env now { e with skippedFiles := 0, cachedFiles := 0 }
        (pre ++ p :: post)).1.skippedFiles
      = (scanFilesSeq env now { e with skippedFiles := 0, cachedFiles := 0 }
        (pre ++ post)).1.skippedFiles + 1
    rw [scanFilesSeq_skipped, scanFilesSeq_skipped]
    simp [List.countP_append, List.countP_cons, hraw]
    omega
  · show (pre ++ p :: post).length = pre.length + post.length + 1
    simp
    omega

/-- An environment in which exactly the file `/missing.js` is unreadable. -/
def failEnv : Env :=
  { sampleEnv with
    readFileContent := fun p => if p = "/missing.js" then none else some "const x = 1;" }

theorem claim_C5_witness :
    ((c2engine.runRulesOnFiles failEnv 0 ["/a.js", "/missing.js", "/b.js"]).2.findings
        = (c2engine.runRulesOnFiles failEnv 0 ["/a.js", "/b.js"]).2.findings)
    ∧ pureFind failEnv c2engine "/missing.js" = []
    ∧ ((c2engine.runRulesOnFiles failEnv 0 ["/a.js", "/missing.js", "/b.js"]).1.skippedFiles
        = (c2engine.runRulesOnFiles failEnv 0 ["/a.js", "/b.js"]).1.skippedFiles + 1)
    ∧ (c2engine.runRulesOnFiles failEnv 0 ["/a.js", "/missing.js", "/b.js"]).2.scannedFiles
        = 3 := by
  exact claim_C5_unreadable_file_skipped failEnv 0 c2engine ["/a.js"] ["/b.js"] "/missing.js"
    (by decide)

/-! ### Claim C9 -/

/-- Every limiter state reachable while draining the per-file task queue
keeps at most `n` tasks in flight. -/
theorem limiter_active_le (n k : Nat) : ∀ s, limiterReachable n k s → s.active ≤ n := by
  intro s hreach
  induction hreach with
  | refl => exact Nat.zero_le n
  | tail hab hbc ih =>
    cases hbc with
    | start p a f hlt => exact hlt
    | finish p a f =>
      simp only at ih ⊢
      omega

/-- Claim C9: under the bounded-parallelism limiter of the engine's
configured concurrency, no reachable state of a `k`-task run has more than
`concurrency` tasks in flight (excess tasks stay queued), and a fresh
engine's bound defaults to 10. -/
theorem claim_C9_concurrency_bound (e : RuleEngine) (k : Nat) (s : LimiterState)
    (hreach : limiterReachable e.concurrency k s) :
    s.active ≤ e.concurrency ∧ RuleEngine.new.concurrency = 10 :=
  ⟨limiter_active_le e.concurrency k s hreach, rfl⟩

theorem claim_C9_witness :
    (⟨1, 1, 0⟩ : LimiterState).active ≤ (RuleEngine.new.setConcurrency 1).concurrency
    ∧ RuleEngine.new.concurrency = 10 :=
  claim_C9_concurrency_bound (RuleEngine.new.setConcurrency 1) 2 ⟨1, 1, 0⟩
    (Relation.ReflTransGen.single (LimiterStep.start 1 0 0 (by decide)))
